import Mathlib

/-!
Shallow embedding of `arithmetic.py` (pybits): bit strings interpreted as
integers least-significant-bit first, with equality up to high-order ZERO
padding, ripple-carry addition modulo the wider width, a left shift driven
by a lazy counting generator, and string rendering.

Bits are booleans: `ONE = true`, `ZERO = false`, as in the source.
-/

namespace PyBits

/-- The two concrete variants `BinaryInt` and `TwosComplimentInt`
(marker subclasses of `Integer` with no behavioural difference). -/
inductive Variant where
  | binaryInt
  | twosComplimentInt
deriving DecidableEq, Repr

/-- An `Integer`: a bit string (least-significant bit first) tagged with its
concrete Python class.  `bits` is the `_bits` tuple of the source. -/
structure Integer where
  variant : Variant
  bits : List Bool
deriving DecidableEq, Repr

/-- A Python value that can appear on the right of `Integer.__eq__` (typed
`Any` in the source): an `Integer`-family value, a plain `BitString`, or any
other object (identified only by an abstract tag, since `__eq__` looks at
nothing but its type). -/
inductive PyValue where
  | integer (i : Integer)
  | bitString (bits : List Bool)
  | other (tag : Nat)
deriving DecidableEq, Repr

/-- The `bit_add` lookup table of the source, keyed by
`(bit1, bit2, carry_in)`, returning `(sum_bit, carry_out)`. -/
def bit_add : Bool × Bool × Bool → Bool × Bool
  | (false, false, false) => (false, false)
  | (true, false, false) => (true, false)
  | (false, true, false) => (true, false)
  | (false, false, true) => (true, false)
  | (true, true, false) => (false, true)
  | (true, false, true) => (false, true)
  | (false, true, true) => (false, true)
  | (true, true, true) => (true, true)

/-- `itertools.zip_longest(xs, ys, fillvalue=ZERO)`: walk both lists in
lock-step, substituting `ZERO` (= `false`) for the exhausted side (when the
left side is exhausted, every remaining right bit is paired with `ZERO`). -/
def zipLongest : List Bool → List Bool → List (Bool × Bool)
  | [], ys => ys.map fun y => (false, y)
  | x :: xs, [] => (x, false) :: zipLongest xs []
  | x :: xs, y :: ys => (x, y) :: zipLongest xs ys

/-- `Integer.__eq__(bits1, bits2)`: `False` when the concrete types differ,
otherwise `False` on the first unequal pair of `zip_longest` bits and `True`
when the loop finishes. -/
def pyEq (bits1 : Integer) (bits2 : PyValue) : Bool :=
  match bits2 with
  | .integer b2 =>
      if bits1.variant ≠ b2.variant then false
      else (zipLongest bits1.bits b2.bits).all fun p => p.1 == p.2
  | _ => false

/-- `a == b` for two `Integer`s (the use `__eq__` gets inside this module). -/
def intEq (bits1 bits2 : Integer) : Bool :=
  pyEq bits1 (.integer bits2)

/-- Name of the Python class of a variant, for the error message. -/
def variantName : Variant → String
  | .binaryInt => "BinaryInt"
  | .twosComplimentInt => "TwosComplimentInt"

/-- The ripple-carry loop of `Integer.__add__`: fold `bit_add` over the
`zip_longest` pairs, threading the carry, collecting the sum bits.  The
carry left at the end is dropped. -/
def addLoop : List (Bool × Bool) → Bool → List Bool
  | [], _ => []
  | (b1, b2) :: rest, carry =>
      let s := bit_add (b1, b2, carry)
      s.1 :: addLoop rest s.2

/-- `Integer.__add__(bits1, bits2)`: raises `ValueError` when the concrete
types differ, otherwise ripple-carry addition over `zip_longest`, the result
carrying `bits1`'s type. -/
def intAdd (bits1 bits2 : Integer) : Except String Integer :=
  if bits1.variant ≠ bits2.variant then
    .error ("Summands must be of same type. Left summand has type "
      ++ variantName bits1.variant ++ "; tight summand has type "
      ++ variantName bits2.variant ++ ".")
  else
    .ok ⟨bits1.variant, addLoop (zipLongest bits1.bits bits2.bits) false⟩

/-- One run of `Integer.count_iter`'s loop body with explicit fuel:
`count = type(self)([ZERO] * width(self))`, then repeatedly
`if count == self: break else: yield count; count += type(self)([ONE])`.
Returns `none` when the fuel runs out before the loop breaks. -/
def countIterAux (self : Integer) : Integer → Nat → Option (List Integer)
  | _, 0 => none
  | count, fuel + 1 =>
      if intEq count self then some []
      else
        match intAdd count ⟨self.variant, [true]⟩ with
        | .error _ => none
        | .ok next => (countIterAux self next fuel).map (count :: ·)

/-- `Integer.count_iter(self)`, as the list of every value the generator
yields (it is only ever consumed lazily; with enough fuel the list is the
whole yielded sequence). -/
def count_iter (self : Integer) (fuel : Nat) : Option (List Integer) :=
  countIterAux self ⟨self.variant, List.replicate self.bits.length false⟩ fuel

/-- Python `zip(it1, it2)` where `it1` is a half-consumed iterator with
`xs` still to yield and `it2` yields `ys`: the pairs produced, together
with what is left of `it1` afterwards.  `zip` polls `it1` first, so when
`it2` is the one that runs out, one extra element of `it1` has already
been consumed and is lost. -/
def pyZip {α β : Type} : List α → List β → List (α × β) × List α
  | [], _ => ([], [])
  | _ :: xs, [] => ([], xs)
  | x :: xs, y :: ys =>
      let r := pyZip xs ys
      ((x, y) :: r.1, r.2)

/-- `Integer.__lshift__(self, shift)`:
`self_iter = iter(self)`;
`return_seq = [ZERO for _ in zip(self_iter, shift.count_iter())]`;
then `for _, bit in zip(self_iter, self): return_seq.append(bit)`.
`fuel` bounds the counting generator (with fuel `value(shift) + 1` the
generator's full output is available, which is all `zip` can demand). -/
def lshiftF (self shift : Integer) (fuel : Nat) : Option Integer :=
  (count_iter shift fuel).map fun counts =>
    let z1 := pyZip self.bits counts
    let return_seq : List Bool := z1.1.map fun _ => false
    let z2 := pyZip z1.2 self.bits
    ⟨self.variant, return_seq ++ z2.1.map Prod.snd⟩

/-- `Integer.__str__`: map each bit to `"1"`/`"0"`, reverse (most
significant digit first), join. -/
def intStr (self : Integer) : String :=
  String.join ((self.bits.map fun bit => if bit then "1" else "0").reverse)

/-- Numeric value of an LSB-first bit string (specification-side notion used
to state the claims; the source never computes it). -/
def bitsValue : List Bool → Nat
  | [] => 0
  | b :: rest => b.toNat + 2 * bitsValue rest

/-- Whether a `PyValue` has the same concrete Python type as an `Integer`
(`type(bits1) == type(bits2)` of the source). -/
def sameConcreteType (a : Integer) : PyValue → Bool
  | .integer b => a.variant == b.variant
  | _ => false

/-! ### Basic lemmas about the helpers -/

theorem zipLongest_length (xs ys : List Bool) :
    (zipLongest xs ys).length = max xs.length ys.length := by
  induction xs, ys using zipLongest.induct with
  | case1 ys => simp [zipLongest]
  | case2 x xs ih => simp [zipLongest, ih]
  | case3 x xs y ys ih => simp [zipLongest, ih]; omega

theorem addLoop_length (ps : List (Bool × Bool)) (c : Bool) :
    (addLoop ps c).length = ps.length := by
  induction ps generalizing c with
  | nil => rfl
  | cons p rest ih => obtain ⟨b1, b2⟩ := p; simp [addLoop, ih]

theorem bitsValue_lt (xs : List Bool) : bitsValue xs < 2 ^ xs.length := by
  induction xs with
  | nil => simp [bitsValue]
  | cons b rest ih =>
      simp only [bitsValue, List.length_cons, pow_succ]
      cases b <;> simp <;> omega

theorem bitsValue_replicate_false (k : Nat) :
    bitsValue (List.replicate k false) = 0 := by
  induction k with
  | zero => rfl
  | succ k ih => simp [List.replicate, bitsValue, ih]

theorem bitsValue_append_replicate_false (xs : List Bool) (k : Nat) :
    bitsValue (xs ++ List.replicate k false) = bitsValue xs := by
  induction xs with
  | nil => simpa [bitsValue] using bitsValue_replicate_false k
  | cons b rest ih => simp [bitsValue, ih]

theorem bitsValue_map_const_false {α : Type} (l : List α) :
    bitsValue (l.map fun _ => false) = 0 := by
  simp [bitsValue_replicate_false]

theorem bitsValue_zipLongest_fst (xs ys : List Bool) :
    bitsValue ((zipLongest xs ys).map Prod.fst) = bitsValue xs := by
  induction xs, ys using zipLongest.induct with
  | case1 ys =>
      simp only [zipLongest, List.map_map]
      simpa [Function.comp, bitsValue] using bitsValue_map_const_false ys
  | case2 x xs ih => simp [zipLongest, bitsValue, ih]
  | case3 x xs y ys ih => simp [zipLongest, bitsValue, ih]

theorem bitsValue_zipLongest_snd (xs ys : List Bool) :
    bitsValue ((zipLongest xs ys).map Prod.snd) = bitsValue ys := by
  induction xs, ys using zipLongest.induct with
  | case1 ys => simp [zipLongest, List.map_map, Function.comp]
  | case2 x xs ih => simp [zipLongest, bitsValue, ih, Bool.toNat]
  | case3 x xs y ys ih => simp [zipLongest, bitsValue, ih]

theorem bit_add_value (b1 b2 c : Bool) :
    ((bit_add (b1, b2, c)).1.toNat + 2 * (bit_add (b1, b2, c)).2.toNat)
      = b1.toNat + b2.toNat + c.toNat := by
  cases b1 <;> cases b2 <;> cases c <;> rfl

theorem two_mul_mod (d x m : Nat) (hd : d < 2) (hm : 0 < m) :
    (d + 2 * x) % (2 * m) = d + 2 * (x % m) := by
  have h1 : 2 * x % (2 * m) = 2 * (x % m) := Nat.mul_mod_mul_left 2 x m
  have h2 : x % m < m := Nat.mod_lt x hm
  have hdm : d % (2 * m) = d := Nat.mod_eq_of_lt (by omega)
  calc (d + 2 * x) % (2 * m)
      = (d % (2 * m) + 2 * x % (2 * m)) % (2 * m) := by rw [Nat.add_mod]
    _ = (d + 2 * (x % m)) % (2 * m) := by rw [h1, hdm]
    _ = d + 2 * (x % m) := Nat.mod_eq_of_lt (by omega)

theorem addLoop_value (ps : List (Bool × Bool)) (c : Bool) :
    bitsValue (addLoop ps c)
      = (bitsValue (ps.map Prod.fst) + bitsValue (ps.map Prod.snd) + c.toNat)
        % 2 ^ ps.length := by
  induction ps generalizing c with
  | nil => cases c <;> rfl
  | cons p rest ih =>
      obtain ⟨b1, b2⟩ := p
      have hd : (bit_add (b1, b2, c)).1.toNat < 2 := by
        cases (bit_add (b1, b2, c)).1 <;> simp
      have hm : 0 < 2 ^ rest.length := Nat.pos_pow_of_pos _ (by omega)
      simp only [addLoop, bitsValue, List.map_cons, List.length_cons, pow_succ, ih]
      rw [mul_comm (2 ^ rest.length) 2]
      have key : b1.toNat + 2 * bitsValue (rest.map Prod.fst)
            + (b2.toNat + 2 * bitsValue (rest.map Prod.snd)) + c.toNat
          = (bit_add (b1, b2, c)).1.toNat
            + 2 * (bitsValue (rest.map Prod.fst) + bitsValue (rest.map Prod.snd)
                + (bit_add (b1, b2, c)).2.toNat) := by
        cases b1 <;> cases b2 <;> cases c <;> simp [bit_add, Bool.toNat] <;> ring
      rw [key, two_mul_mod _ _ _ hd hm]

/-! ### Characterisations of equality -/

theorem all_false_pairs_iff_value (ys : List Bool) :
    ((ys.map fun y => ((false : Bool), y)).all fun p => p.1 == p.2) = true
      ↔ bitsValue ys = 0 := by
  induction ys with
  | nil => simp [bitsValue]
  | cons y ys ih =>
      simp only [List.map_cons, List.all_cons, Bool.and_eq_true, ih, bitsValue]
      cases y <;> simp [Bool.toNat]

theorem zipLongest_all_eq_iff_value (xs ys : List Bool) :
    ((zipLongest xs ys).all fun p => p.1 == p.2) = true
      ↔ bitsValue xs = bitsValue ys := by
  induction xs, ys using zipLongest.induct with
  | case1 ys =>
      show ((ys.map fun y => ((false : Bool), y)).all fun p => p.1 == p.2)
          = true ↔ bitsValue [] = bitsValue ys
      rw [all_false_pairs_iff_value]
      simp [bitsValue, eq_comm]
  | case2 x xs ih =>
      simp only [zipLongest, List.all_cons, Bool.and_eq_true, beq_iff_eq,
        bitsValue, ih]
      cases x <;> simp [Bool.toNat]
  | case3 x xs y ys ih =>
      simp only [zipLongest, List.all_cons, Bool.and_eq_true, beq_iff_eq,
        bitsValue, ih]
      cases x <;> cases y <;> simp [Bool.toNat] <;> omega

theorem intEq_iff (a b : Integer) :
    intEq a b = true
      ↔ a.variant = b.variant ∧ bitsValue a.bits = bitsValue b.bits := by
  by_cases h : a.variant = b.variant
  · have he : intEq a b
        = ((zipLongest a.bits b.bits).all fun p => p.1 == p.2) := by
      simp [intEq, pyEq, h]
    rw [he, zipLongest_all_eq_iff_value]
    simp [h]
  · have he : intEq a b = false := by simp [intEq, pyEq, h]
    simp [he, h]

theorem all_false_pairs_iff_getD (ys : List Bool) :
    ((ys.map fun y => ((false : Bool), y)).all fun p => p.1 == p.2) = true
      ↔ ∀ i < ys.length, ys.getD i false = false := by
  induction ys with
  | nil => simp
  | cons y ys ih =>
      simp only [List.map_cons, List.all_cons, Bool.and_eq_true, ih]
      constructor
      · rintro ⟨hy, hrest⟩ i hi
        match i with
        | 0 => simpa using hy.symm
        | j + 1 =>
            simp only [List.getD, List.get?] at hrest ⊢
            exact hrest j (by simp at hi ⊢; omega)
      · intro h
        refine ⟨by simpa using (h 0 (by simp)).symm, fun j hj => ?_⟩
        have := h (j + 1) (by simp at hj ⊢; omega)
        simpa using this

theorem zipLongest_all_eq_iff_getD (xs ys : List Bool) :
    ((zipLongest xs ys).all fun p => p.1 == p.2) = true
      ↔ ∀ i < max xs.length ys.length, xs.getD i false = ys.getD i false := by
  induction xs, ys using zipLongest.induct with
  | case1 ys =>
      show ((ys.map fun y => ((false : Bool), y)).all fun p => p.1 == p.2)
          = true ↔ ∀ i < max ([] : List Bool).length ys.length,
            ([] : List Bool).getD i false = ys.getD i false
      rw [all_false_pairs_iff_getD]
      constructor
      · intro h i hi
        have hi' : i < ys.length := by simpa using hi
        simpa using (h i hi').symm
      · intro h i hi
        have := (h i (by simpa using hi)).symm
        simpa using this
  | case2 x xs ih =>
      simp only [zipLongest, List.all_cons, Bool.and_eq_true, beq_iff_eq, ih]
      constructor
      · rintro ⟨hx, hrest⟩ i hi
        match i with
        | 0 => simpa using hx
        | j + 1 =>
            simp only [List.getD, List.get?] at hrest ⊢
            exact hrest j (by simp at hi ⊢; omega)
      · intro h
        refine ⟨by simpa using h 0 (by simp), fun j hj => ?_⟩
        have := h (j + 1) (by simp at hj ⊢; omega)
        simpa using this
  | case3 x xs y ys ih =>
      simp only [zipLongest, List.all_cons, Bool.and_eq_true, beq_iff_eq, ih]
      constructor
      · rintro ⟨hx, hrest⟩ i hi
        match i with
        | 0 => simpa using hx
        | j + 1 =>
            simp only [List.getD, List.get?] at hrest ⊢
            exact hrest j (by simp at hi ⊢; omega)
      · intro h
        refine ⟨by simpa using h 0 (by simp), fun j hj => ?_⟩
        have := h (j + 1) (by simp at hj ⊢; omega)
        simpa using this

/-! ### Addition facts -/

theorem intAdd_same (a b : Integer) (h : a.variant = b.variant) :
    intAdd a b = .ok ⟨a.variant, addLoop (zipLongest a.bits b.bits) false⟩ := by
  simp [intAdd, h]

theorem intAdd_ok_iff (a b : Integer) :
    (∃ r, intAdd a b = .ok r) ↔ a.variant = b.variant := by
  unfold intAdd
  by_cases h : a.variant = b.variant <;> simp [h]

theorem intAdd_value (a b : Integer) (h : a.variant = b.variant) :
    intAdd a b = .ok ⟨a.variant, addLoop (zipLongest a.bits b.bits) false⟩
    ∧ (addLoop (zipLongest a.bits b.bits) false).length
        = max a.bits.length b.bits.length
    ∧ bitsValue (addLoop (zipLongest a.bits b.bits) false)
        = (bitsValue a.bits + bitsValue b.bits)
          % 2 ^ max a.bits.length b.bits.length := by
  refine ⟨intAdd_same a b h, ?_, ?_⟩
  · rw [addLoop_length, zipLongest_length]
  · rw [addLoop_value, bitsValue_zipLongest_fst, bitsValue_zipLongest_snd,
      zipLongest_length]
    simp [Bool.toNat]

theorem zipLongest_nil_right (xs : List Bool) :
    zipLongest xs [] = xs.map fun x => (x, false) := by
  induction xs with
  | nil => rfl
  | cons x xs ih => simp [zipLongest, ih]

theorem zipLongest_swap (xs ys : List Bool) :
    zipLongest ys xs = (zipLongest xs ys).map Prod.swap := by
  induction xs, ys using zipLongest.induct with
  | case1 ys =>
      rw [zipLongest_nil_right]
      show _ = (ys.map fun y => ((false : Bool), y)).map Prod.swap
      simp [List.map_map, Function.comp, Prod.swap]
  | case2 x xs ih =>
      have ih' : xs.map (fun y => ((false : Bool), y))
          = (zipLongest xs []).map Prod.swap := ih
      show (x :: xs).map (fun y => ((false : Bool), y)) = _
      simp [zipLongest, ih', Prod.swap]
  | case3 x xs y ys ih => simp [zipLongest, ih, Prod.swap]

theorem bit_add_comm (b1 b2 c : Bool) :
    bit_add (b2, b1, c) = bit_add (b1, b2, c) := by
  cases b1 <;> cases b2 <;> cases c <;> rfl

theorem addLoop_map_swap (ps : List (Bool × Bool)) (c : Bool) :
    addLoop (ps.map Prod.swap) c = addLoop ps c := by
  induction ps generalizing c with
  | nil => rfl
  | cons p rest ih =>
      obtain ⟨b1, b2⟩ := p
      simp [addLoop, Prod.swap, bit_add_comm, ih]

/-! ### The counting generator -/

theorem succ_bits_length (c : List Bool) :
    (addLoop (zipLongest c [true]) false).length = max c.length 1 := by
  rw [addLoop_length, zipLongest_length]; rfl

theorem succ_bits_value (c : List Bool) :
    bitsValue (addLoop (zipLongest c [true]) false)
      = (bitsValue c + 1) % 2 ^ max c.length 1 := by
  rw [addLoop_value, bitsValue_zipLongest_fst, bitsValue_zipLongest_snd,
    zipLongest_length]
  rfl

theorem length_pos_of_value_pos (xs : List Bool) (h : 0 < bitsValue xs) :
    0 < xs.length := by
  rcases xs with _ | ⟨b, rest⟩
  · simp [bitsValue] at h
  · simp

theorem countIterAux_spec (n : Integer) (m : Nat) :
    ∀ count : Integer, count.variant = n.variant →
    count.bits.length = n.bits.length →
    bitsValue count.bits + m = bitsValue n.bits →
    ∃ l, countIterAux n count (m + 1) = some l
      ∧ l.map (fun c => bitsValue c.bits)
          = List.range' (bitsValue count.bits) m
      ∧ l.map (fun c => c.variant) = List.replicate m n.variant := by
  induction m with
  | zero =>
      intro count hvar hlen hval
      have heq : intEq count n = true :=
        (intEq_iff count n).mpr ⟨hvar, by omega⟩
      exact ⟨[], by simp [countIterAux, heq], by simp, by simp⟩
  | succ m ih =>
      intro count hvar hlen hval
      have hne : intEq count n = false := by
        rcases h : intEq count n with _ | _
        · rfl
        · rcases (intEq_iff count n).mp h with ⟨-, hv⟩
          omega
      have hL : 0 < n.bits.length := by
        have := length_pos_of_value_pos n.bits (by omega)
        exact this
      have hnlt : bitsValue n.bits < 2 ^ n.bits.length := bitsValue_lt n.bits
      have hadd : intAdd count ⟨n.variant, [true]⟩
          = .ok ⟨count.variant, addLoop (zipLongest count.bits [true]) false⟩ :=
        intAdd_same count ⟨n.variant, [true]⟩ hvar
      set next : Integer :=
        ⟨count.variant, addLoop (zipLongest count.bits [true]) false⟩ with hnext
      have hnext_len : next.bits.length = n.bits.length := by
        rw [hnext]
        show (addLoop (zipLongest count.bits [true]) false).length = _
        rw [succ_bits_length, hlen]
        omega
      have hnext_val : bitsValue next.bits = bitsValue count.bits + 1 := by
        rw [hnext]
        show bitsValue (addLoop (zipLongest count.bits [true]) false) = _
        rw [succ_bits_value, hlen]
        have : max n.bits.length 1 = n.bits.length := by omega
        rw [this]
        exact Nat.mod_eq_of_lt (by omega)
      obtain ⟨l, hl, hlv, hlvar⟩ :=
        ih next hvar hnext_len (by omega)
      refine ⟨count :: l, ?_, ?_, ?_⟩
      · show countIterAux n count (m + 1 + 1) = _
        rw [countIterAux, hne]
        simp only [Bool.false_eq_true, if_false]
        rw [hadd]
        simp [hl]
      · simp only [List.map_cons, hlv, hnext_val.symm]
        rw [List.range'_succ]
        rw [hnext_val]
      · simp [hlvar, hvar, List.replicate_succ]

theorem count_iter_spec (n : Integer) :
    ∃ l, count_iter n (bitsValue n.bits + 1) = some l
      ∧ l.map (fun c => bitsValue c.bits) = List.range (bitsValue n.bits)
      ∧ l.map (fun c => c.variant)
          = List.replicate (bitsValue n.bits) n.variant := by
  obtain ⟨l, hl, hlv, hlvar⟩ :=
    countIterAux_spec n (bitsValue n.bits)
      ⟨n.variant, List.replicate n.bits.length false⟩ rfl (by simp)
      (by rw [bitsValue_replicate_false]; omega)
  refine ⟨l, hl, ?_, hlvar⟩
  rw [hlv]
  show List.range' (bitsValue (List.replicate n.bits.length false)) _ = _
  rw [bitsValue_replicate_false, List.range_eq_range']

theorem count_iter_length (n : Integer) (l : List Integer)
    (h : count_iter n (bitsValue n.bits + 1) = some l) :
    l.length = bitsValue n.bits := by
  obtain ⟨l', hl', hlv, -⟩ := count_iter_spec n
  rw [h] at hl'
  cases hl'
  have := congrArg List.length hlv
  simpa using this

/-! ### `zip` over stateful iterators and the left shift -/

theorem pyZip_fst {α β : Type} (xs : List α) (ys : List β) :
    (pyZip xs ys).1 = xs.zip ys := by
  induction xs generalizing ys with
  | nil => rfl
  | cons x xs ih => cases ys <;> simp [pyZip, List.zip, ih]

theorem pyZip_snd {α β : Type} (xs : List α) (ys : List β) :
    (pyZip xs ys).2 = xs.drop (min xs.length (ys.length + 1)) := by
  induction xs generalizing ys with
  | nil => simp [pyZip]
  | cons x xs ih =>
      cases ys with
      | nil => simp [pyZip]
      | cons y ys =>
          simp only [pyZip, ih, List.length_cons]
          have hmin : min (xs.length + 1) (ys.length + 1 + 1)
              = min xs.length (ys.length + 1) + 1 := by omega
          rw [hmin, List.drop_succ_cons]

theorem map_const_false {α : Type} (l : List α) :
    (l.map fun _ => false) = List.replicate l.length false := by
  induction l with
  | nil => rfl
  | cons x l ih => simp [List.replicate, ih]

theorem zip_map_snd {α β : Type} (xs : List α) (ys : List β) :
    (xs.zip ys).map Prod.snd = ys.take (min xs.length ys.length) := by
  induction xs generalizing ys with
  | nil => simp
  | cons x xs ih =>
      cases ys with
      | nil => simp
      | cons y ys =>
          simp only [List.zip_cons_cons, List.map_cons, ih, List.length_cons]
          have hmin : min (xs.length + 1) (ys.length + 1)
              = min xs.length ys.length + 1 := by omega
          rw [hmin, List.take_succ_cons]

theorem lshiftF_shape (a s : Integer) (fuel : Nat) (counts : List Integer)
    (hc : count_iter s fuel = some counts) :
    lshiftF a s fuel = some ⟨a.variant,
      List.replicate (min a.bits.length counts.length) false
        ++ a.bits.take
            (a.bits.length - min a.bits.length (counts.length + 1))⟩ := by
  unfold lshiftF
  rw [hc]
  simp only [Option.map_some']
  congr 1
  have h1 : (pyZip a.bits counts).1.map (fun _ => false)
      = List.replicate (min a.bits.length counts.length) false := by
    rw [map_const_false, pyZip_fst, List.length_zip]
  have hlen2 : (pyZip a.bits counts).2.length
      = a.bits.length - min a.bits.length (counts.length + 1) := by
    rw [pyZip_snd, List.length_drop]
  have h2 : (pyZip (pyZip a.bits counts).2 a.bits).1.map Prod.snd
      = a.bits.take
          (a.bits.length - min a.bits.length (counts.length + 1)) := by
    rw [pyZip_fst, zip_map_snd, hlen2]
    congr 1
    omega
  rw [h1, h2]

/-! ### String rendering -/

theorem foldl_append_data (l : List String) (acc : String) :
    (l.foldl (· ++ ·) acc).data = acc.data ++ (l.map String.data).flatten := by
  induction l generalizing acc with
  | nil => simp
  | cons s l ih =>
      simp only [List.foldl_cons, List.map_cons, List.flatten, ih,
        String.data_append, List.append_assoc]

theorem string_join_data (l : List String) :
    (String.join l).data = (l.map String.data).flatten := by
  show (l.foldl (· ++ ·) "").data = _
  rw [foldl_append_data]
  rfl

theorem join_reverse_singletons {α β : Type} (l : List α) (g : α → β) :
    ((l.map fun x => [g x]).reverse).flatten = (l.map g).reverse := by
  induction l with
  | nil => rfl
  | cons x l ih =>
      simp only [List.map_cons, List.reverse_cons, List.flatten_append, ih]
      rfl

theorem intStr_data (a : Integer) :
    (intStr a).data = (a.bits.map fun b => if b then '1' else '0').reverse := by
  unfold intStr
  rw [string_join_data, List.map_reverse, List.map_map]
  have hcomp : (String.data ∘ fun bit => if bit = true then "1" else "0")
      = fun bit => [if bit = true then '1' else '0'] := by
    funext bit
    cases bit <;> rfl
  rw [hcomp, join_reverse_singletons]

/-! ### The claims -/

/-- C1: the spec's left-shift contract — `a << s` keeps `a`'s width, the low
`min(value(s), width(a))` positions become ZERO, and the high positions carry
`a`'s bits shifted up — is violated by the code.  Python's `zip` polls
`self_iter` first, so when the counting generator runs out first (whenever
`value(s) < width(a)`) one bit of `self` is consumed and lost.  At
`a = [ONE, ZERO]` (width 2, value 1) and `s = [ONE]` (value 1) the code
returns `[ZERO]` — width 1, value 0 — where the contract demands
`[ZERO, ONE]` (width 2, value 2). -/
theorem lshift_width_shrink_bug :
    lshiftF ⟨.binaryInt, [true, false]⟩ ⟨.binaryInt, [true]⟩ 2
      = some ⟨.binaryInt, [false]⟩
    ∧ (Integer.mk .binaryInt [false]).bits.length
        ≠ (Integer.mk .binaryInt [true, false]).bits.length := by
  exact ⟨by decide, by decide⟩

/-- C2: the spec says shifting by a ZERO-valued Integer returns a value equal
to the original.  The code violates it: at `a = [ONE]` and `z = [ZERO]`,
`a << z` returns the empty bit string (width 0, value 0), which is not equal
to `a` (value 1) under the padding equality. -/
theorem lshift_zero_bug :
    lshiftF ⟨.binaryInt, [true]⟩ ⟨.binaryInt, [false]⟩ 1
      = some ⟨.binaryInt, []⟩
    ∧ intEq ⟨.binaryInt, []⟩ ⟨.binaryInt, [true]⟩ = false := by
  exact ⟨by decide, by decide⟩

/-- C5: shifting by an amount whose value is at least `width(a)` does not
error: it returns the all-ZERO Integer of exactly `width(a)` (the counting
generator is consumed lazily, and `self`'s iterator runs out first, so the
extra-consumption bug cannot bite). -/
theorem lshift_ge_width_all_zero (a s : Integer)
    (h : a.bits.length ≤ bitsValue s.bits) :
    lshiftF a s (bitsValue s.bits + 1)
      = some ⟨a.variant, List.replicate a.bits.length false⟩ := by
  obtain ⟨counts, hc, hvals, -⟩ := count_iter_spec s
  have hlen : counts.length = bitsValue s.bits := by
    have := congrArg List.length hvals
    simpa using this
  rw [lshiftF_shape a s _ counts hc, hlen]
  have h1 : min a.bits.length (bitsValue s.bits) = a.bits.length := by omega
  have h2 : a.bits.length - min a.bits.length (bitsValue s.bits + 1) = 0 := by
    omega
  rw [h1, h2]
  simp

/-- Witness for C5 at `a = [ONE]`, `s = [ONE]` (width 1 ≤ value 1). -/
theorem lshift_ge_width_all_zero_witness :
    (Integer.mk .binaryInt [true]).bits.length
        ≤ bitsValue (Integer.mk .binaryInt [true]).bits
    ∧ lshiftF ⟨.binaryInt, [true]⟩ ⟨.binaryInt, [true]⟩ 2
        = some ⟨.binaryInt, [false]⟩ :=
  ⟨by decide,
    lshift_ge_width_all_zero ⟨.binaryInt, [true]⟩ ⟨.binaryInt, [true]⟩
      (by decide)⟩

/-- C6: `__add__` raises its `ValueError` exactly when the concrete variants
of the operands differ, and produces a result exactly when they agree (the
embedding's `Except` separates the aborted case from any result; the
operands, being immutable values, are untouched either way). -/
theorem add_variant_mismatch_error (a b : Integer) :
    ((∃ msg, intAdd a b = .error msg) ↔ a.variant ≠ b.variant)
    ∧ ((∃ r, intAdd a b = .ok r) ↔ a.variant = b.variant) := by
  unfold intAdd
  by_cases h : a.variant = b.variant <;> simp [h]

/-- C7: `count_iter(n)` terminates for every finite-width `n`: with fuel
`value(n) + 1` the loop breaks, having yielded exactly `value(n)` Integers of
`n`'s variant whose values are `0, 1, ..., value(n) - 1` in ascending
order. -/
theorem count_iter_terminates_and_counts (n : Integer) :
    ∃ l, count_iter n (bitsValue n.bits + 1) = some l
      ∧ l.map (fun c => bitsValue c.bits) = List.range (bitsValue n.bits)
      ∧ l.map (fun c => c.variant)
          = List.replicate (bitsValue n.bits) n.variant :=
  count_iter_spec n

/-- C3: for same-variant operands, `__add__` returns an Integer of the shared
variant whose width is exactly `max(width(a), width(b))` and whose value is
`(value(a) + value(b)) mod 2^max(width(a), width(b))`; in particular
`[1,1,1,1] + [1,1,1,1] = [0,1,1,1]` at width 4, the final carry discarded. -/
theorem add_width_and_value (a b : Integer) (h : a.variant = b.variant) :
    ∃ r, intAdd a b = .ok r
      ∧ r.variant = a.variant
      ∧ r.bits.length = max a.bits.length b.bits.length
      ∧ bitsValue r.bits
          = (bitsValue a.bits + bitsValue b.bits)
            % 2 ^ max a.bits.length b.bits.length
      ∧ intAdd ⟨a.variant, [true, true, true, true]⟩
            ⟨a.variant, [true, true, true, true]⟩
          = .ok ⟨a.variant, [false, true, true, true]⟩ := by
  obtain ⟨hok, hlen, hval⟩ := intAdd_value a b h
  refine ⟨_, hok, rfl, hlen, hval, ?_⟩
  cases hv : a.variant <;> rfl

/-- Witness for C3 at `a = [ONE]`, `b = [ONE, ZERO]` (values 1 and 1,
widths 1 and 2; the sum is `[ZERO, ONE]`, value 2, width 2). -/
theorem add_width_and_value_witness :
    (Integer.mk .binaryInt [true]).variant
        = (Integer.mk .binaryInt [true, false]).variant
    ∧ ∃ r, intAdd ⟨.binaryInt, [true]⟩ ⟨.binaryInt, [true, false]⟩ = .ok r
      ∧ r.variant = (Integer.mk .binaryInt [true]).variant
      ∧ r.bits.length
          = max (Integer.mk .binaryInt [true]).bits.length
              (Integer.mk .binaryInt [true, false]).bits.length
      ∧ bitsValue r.bits
          = (bitsValue (Integer.mk .binaryInt [true]).bits
              + bitsValue (Integer.mk .binaryInt [true, false]).bits)
            % 2 ^ max (Integer.mk .binaryInt [true]).bits.length
                (Integer.mk .binaryInt [true, false]).bits.length
      ∧ intAdd ⟨.binaryInt, [true, true, true, true]⟩
            ⟨.binaryInt, [true, true, true, true]⟩
          = .ok ⟨.binaryInt, [false, true, true, true]⟩ :=
  ⟨rfl, add_width_and_value ⟨.binaryInt, [true]⟩ ⟨.binaryInt, [true, false]⟩
    rfl⟩

/-- C4: for same-variant operands, equality walks both sequences least to
most significant, padding the exhausted side with ZERO, and is true exactly
when every paired bit agrees up to the larger width; appending high-order
ZERO bits to either side never changes the result. -/
theorem eq_padding_spec (a b : Integer) (h : a.variant = b.variant) :
    (intEq a b = true ↔
      ∀ i < max a.bits.length b.bits.length,
        a.bits.getD i false = b.bits.getD i false)
    ∧ ∀ k : Nat,
        intEq ⟨a.variant, a.bits ++ List.replicate k false⟩ b = intEq a b
        ∧ intEq a ⟨b.variant, b.bits ++ List.replicate k false⟩
            = intEq a b := by
  constructor
  · have he : intEq a b
        = ((zipLongest a.bits b.bits).all fun p => p.1 == p.2) := by
      simp [intEq, pyEq, h]
    rw [he]
    exact zipLongest_all_eq_iff_getD a.bits b.bits
  · intro k
    constructor
    · rw [Bool.eq_iff_iff, intEq_iff, intEq_iff]
      simp [bitsValue_append_replicate_false]
    · rw [Bool.eq_iff_iff, intEq_iff, intEq_iff]
      simp [bitsValue_append_replicate_false]

/-- Witness for C4 at `a = [ONE, ZERO]`, `b = [ONE]` (same variant). -/
theorem eq_padding_spec_witness :
    (Integer.mk .binaryInt [true, false]).variant
        = (Integer.mk .binaryInt [true]).variant
    ∧ ((intEq ⟨.binaryInt, [true, false]⟩ ⟨.binaryInt, [true]⟩ = true ↔
        ∀ i < max (Integer.mk .binaryInt [true, false]).bits.length
            (Integer.mk .binaryInt [true]).bits.length,
          (Integer.mk .binaryInt [true, false]).bits.getD i false
            = (Integer.mk .binaryInt [true]).bits.getD i false)
      ∧ ∀ k : Nat,
          intEq ⟨(Integer.mk .binaryInt [true, false]).variant,
              (Integer.mk .binaryInt [true, false]).bits
                ++ List.replicate k false⟩ ⟨.binaryInt, [true]⟩
            = intEq ⟨.binaryInt, [true, false]⟩ ⟨.binaryInt, [true]⟩
          ∧ intEq ⟨.binaryInt, [true, false]⟩
              ⟨(Integer.mk .binaryInt [true]).variant,
                (Integer.mk .binaryInt [true]).bits
                  ++ List.replicate k false⟩
            = intEq ⟨.binaryInt, [true, false]⟩ ⟨.binaryInt, [true]⟩) :=
  ⟨rfl, eq_padding_spec ⟨.binaryInt, [true, false]⟩ ⟨.binaryInt, [true]⟩ rfl⟩

/-- C8: addition of same-variant Integers is commutative under the padding
equality (indeed the two results have identical bit strings). -/
theorem add_comm_under_eq (a b : Integer) (h : a.variant = b.variant) :
    ∃ r1 r2, intAdd a b = .ok r1 ∧ intAdd b a = .ok r2
      ∧ intEq r1 r2 = true := by
  refine ⟨_, _, intAdd_same a b h, intAdd_same b a h.symm, ?_⟩
  have hbits : addLoop (zipLongest b.bits a.bits) false
      = addLoop (zipLongest a.bits b.bits) false := by
    rw [zipLongest_swap a.bits b.bits, addLoop_map_swap]
  apply (intEq_iff _ _).mpr
  exact ⟨h, by simp [hbits]⟩

/-- Witness for C8 at `a = [ONE]`, `b = [ONE, ZERO]`. -/
theorem add_comm_under_eq_witness :
    (Integer.mk .binaryInt [true]).variant
        = (Integer.mk .binaryInt [true, false]).variant
    ∧ ∃ r1 r2,
        intAdd ⟨.binaryInt, [true]⟩ ⟨.binaryInt, [true, false]⟩ = .ok r1
        ∧ intAdd ⟨.binaryInt, [true, false]⟩ ⟨.binaryInt, [true]⟩ = .ok r2
        ∧ intEq r1 r2 = true :=
  ⟨rfl, add_comm_under_eq ⟨.binaryInt, [true]⟩ ⟨.binaryInt, [true, false]⟩
    rfl⟩

/-- C9: `__str__` renders exactly `width(a)` characters drawn from `1`/`0`,
most-significant digit first (the reverse of the stored least-first order),
with no trimming; `[1,0,1,1,0]` renders as `"01101"`. -/
theorem str_msb_first_spec :
    (∀ a : Integer,
      (intStr a).length = a.bits.length
      ∧ (intStr a).data
          = (a.bits.map fun b => if b then '1' else '0').reverse
      ∧ ((intStr a).data.all fun c => c == '1' || c == '0') = true)
    ∧ intStr ⟨.binaryInt, [true, false, true, true, false]⟩ = "01101" := by
  constructor
  · intro a
    have hdata := intStr_data a
    refine ⟨?_, hdata, ?_⟩
    · show (intStr a).data.length = _
      rw [hdata]
      simp
    · rw [hdata]
      simp only [List.all_eq_true, List.mem_reverse, List.mem_map]
      rintro c ⟨b, -, rfl⟩
      cases b <;> rfl
  · rfl

/-- C10: `__eq__` with any value whose concrete type differs from the left
operand's — another Integer variant, a bare `BitString`, or any non-Integer
object — returns `False` (it never raises: the embedding is a total
function into `Bool`). -/
theorem eq_false_on_type_mismatch (a : Integer) (v : PyValue)
    (h : sameConcreteType a v = false) : pyEq a v = false := by
  cases v with
  | integer b =>
      have hv : a.variant ≠ b.variant := by
        intro hv
        simp [sameConcreteType, hv] at h
      simp [pyEq, hv]
  | bitString bits => rfl
  | other t => rfl

/-- Witness for C10: a `BinaryInt` compared with a `TwosComplimentInt`
carrying the identical bit pattern. -/
theorem eq_false_on_type_mismatch_witness :
    sameConcreteType ⟨.binaryInt, [true]⟩
        (.integer ⟨.twosComplimentInt, [true]⟩) = false
    ∧ pyEq ⟨.binaryInt, [true]⟩
        (.integer ⟨.twosComplimentInt, [true]⟩) = false :=
  ⟨by decide,
    eq_false_on_type_mismatch ⟨.binaryInt, [true]⟩
      (.integer ⟨.twosComplimentInt, [true]⟩) (by decide)⟩

end PyBits
